/-
Verification of the poker websocket server's connection/room membership
registry (lib/websocket.js and server.js).

The JavaScript state lives in two module-level Maps, `userSockets`
(userId to socket) and `roomConnections` (roomId to Set of userIds),
plus socket.io's own per-socket room set.  We embed JavaScript Maps as
association lists with in-place update (JavaScript `Map.set` keeps the
insertion position of an existing key), JavaScript Sets of strings as
duplicate-free lists in insertion order, and each live socket.io socket
as a record of its `userId` property and its current room set (minus
the socket's private id room).
-/
import Mathlib

set_option maxHeartbeats 1000000

/-- Association-list lookup, modelling JavaScript `Map.get`. -/
def mget {α β : Type} [DecidableEq α] : List (α × β) → α → Option β
  | [], _ => none
  | p :: rest, k => if p.1 = k then some p.2 else mget rest k

/-- Association-list update, modelling JavaScript `Map.set`: replaces the
value in place when the key is present, appends a new entry otherwise. -/
def mset {α β : Type} [DecidableEq α] : List (α × β) → α → β → List (α × β)
  | [], k, v => [(k, v)]
  | p :: rest, k, v => if p.1 = k then (k, v) :: rest else p :: mset rest k v

/-- Association-list deletion, modelling JavaScript `Map.delete`. -/
def mdel {α β : Type} [DecidableEq α] : List (α × β) → α → List (α × β)
  | [], _ => []
  | p :: rest, k => if p.1 = k then mdel rest k else p :: mdel rest k

/-- The keys of an association list are pairwise distinct (true of every
state representable by a JavaScript Map). -/
def NodupK {α β : Type} (l : List (α × β)) : Prop := (l.map Prod.fst).Nodup

instance {α β : Type} [DecidableEq α] (l : List (α × β)) : Decidable (NodupK l) :=
  inferInstanceAs (Decidable (l.map Prod.fst).Nodup)

theorem mget_mset_self {α β : Type} [DecidableEq α] (l : List (α × β)) (k : α) (v : β) :
    mget (mset l k v) k = some v := by
  induction l with
  | nil => simp [mset, mget]
  | cons p rest ih =>
    by_cases h : p.1 = k
    · simp [mset, h, mget]
    · simp [mset, h, mget, ih]

theorem mget_mset_ne {α β : Type} [DecidableEq α] (l : List (α × β)) (k : α) (v : β)
    {k' : α} (h : k' ≠ k) : mget (mset l k v) k' = mget l k' := by
  induction l with
  | nil => simp [mset, mget, Ne.symm h]
  | cons p rest ih =>
    by_cases hp : p.1 = k
    · have hp' : p.1 ≠ k' := by rw [hp]; exact Ne.symm h
      simp [mset, hp, mget, Ne.symm h, hp']
    · by_cases hp' : p.1 = k'
      · simp [mset, hp, mget, hp', h]
      · simp [mset, hp, mget, hp', ih]

theorem mget_mdel_self {α β : Type} [DecidableEq α] (l : List (α × β)) (k : α) :
    mget (mdel l k) k = none := by
  induction l with
  | nil => simp [mdel, mget]
  | cons p rest ih =>
    by_cases h : p.1 = k
    · simp [mdel, h, ih]
    · simp [mdel, h, mget, ih]

theorem mget_mdel_ne {α β : Type} [DecidableEq α] (l : List (α × β)) (k : α)
    {k' : α} (h : k' ≠ k) : mget (mdel l k) k' = mget l k' := by
  induction l with
  | nil => simp [mdel]
  | cons p rest ih =>
    by_cases hp : p.1 = k
    · have hp' : p.1 ≠ k' := by rw [hp]; exact Ne.symm h
      simp [mdel, hp, mget, hp', ih, Ne.symm h]
    · by_cases hp' : p.1 = k'
      · simp [mdel, hp, mget, hp', h]
      · simp [mdel, hp, mget, hp', ih]

theorem mem_mdel {α β : Type} [DecidableEq α] {l : List (α × β)} {k : α} {p : α × β} :
    p ∈ mdel l k ↔ p ∈ l ∧ p.1 ≠ k := by
  induction l with
  | nil => simp [mdel]
  | cons q rest ih =>
    by_cases hq : q.1 = k
    · rw [mdel, if_pos hq, ih, List.mem_cons]
      constructor
      · rintro ⟨h1, h2⟩
        exact ⟨Or.inr h1, h2⟩
      · rintro ⟨h1 | h1, h2⟩
        · exact absurd (h1 ▸ hq) h2
        · exact ⟨h1, h2⟩
    · rw [mdel, if_neg hq, List.mem_cons, List.mem_cons, ih]
      constructor
      · rintro (rfl | ⟨h1, h2⟩)
        · exact ⟨Or.inl rfl, hq⟩
        · exact ⟨Or.inr h1, h2⟩
      · rintro ⟨rfl | h1, h2⟩
        · exact Or.inl rfl
        · exact Or.inr ⟨h1, h2⟩

theorem mdel_of_mget_none {α β : Type} [DecidableEq α] {l : List (α × β)} {k : α}
    (h : mget l k = none) : mdel l k = l := by
  induction l with
  | nil => rfl
  | cons p rest ih =>
    by_cases hp : p.1 = k
    · rw [mget, if_pos hp] at h
      exact absurd h (by simp)
    · rw [mget, if_neg hp] at h
      rw [mdel, if_neg hp, ih h]

theorem mdel_mdel {α β : Type} [DecidableEq α] (l : List (α × β)) (k : α) :
    mdel (mdel l k) k = mdel l k :=
  mdel_of_mget_none (mget_mdel_self l k)

theorem mem_of_mget {α β : Type} [DecidableEq α] {l : List (α × β)} {k : α} {v : β}
    (h : mget l k = some v) : (k, v) ∈ l := by
  induction l with
  | nil => simp [mget] at h
  | cons p rest ih =>
    rcases p with ⟨a, b⟩
    by_cases hp : a = k
    · rw [mget, if_pos hp] at h
      rw [List.mem_cons]
      left
      rw [← hp]
      exact congrArg (Prod.mk a) (Option.some.inj h).symm
    · rw [mget, if_neg hp] at h
      exact List.mem_cons_of_mem _ (ih h)

theorem mget_isSome_of_mem {α β : Type} [DecidableEq α] {l : List (α × β)} {p : α × β}
    (h : p ∈ l) : ∃ v, mget l p.1 = some v := by
  induction l with
  | nil => simp at h
  | cons q rest ih =>
    by_cases hq : q.1 = p.1
    · exact ⟨q.2, by rw [mget, if_pos hq]⟩
    · rw [List.mem_cons] at h
      rcases h with rfl | h
      · exact absurd rfl hq
      · rw [mget, if_neg hq]
        exact ih h

theorem mget_eq_of_mem {α β : Type} [DecidableEq α] {l : List (α × β)} {p : α × β}
    (hnk : NodupK l) (h : p ∈ l) : mget l p.1 = some p.2 := by
  induction l with
  | nil => simp at h
  | cons q rest ih =>
    rw [NodupK, List.map_cons, List.nodup_cons] at hnk
    rw [List.mem_cons] at h
    rcases h with rfl | h
    · rw [mget, if_pos rfl]
    · have hq : q.1 ≠ p.1 := by
        intro he
        exact hnk.1 (he ▸ List.mem_map_of_mem Prod.fst h)
      rw [mget, if_neg hq]
      exact ih hnk.2 h

theorem mset_same {α β : Type} [DecidableEq α] {l : List (α × β)} {k : α} {v : β}
    (h : mget l k = some v) : mset l k v = l := by
  induction l with
  | nil => simp [mget] at h
  | cons p rest ih =>
    by_cases hp : p.1 = k
    · rw [mget, if_pos hp] at h
      rw [mset, if_pos hp]
      have : (k, v) = p := by
        rcases p with ⟨a, b⟩
        simp only at hp
        subst hp
        exact congrArg (Prod.mk a) (Option.some.inj h).symm
      rw [this]
    · rw [mget, if_neg hp] at h
      rw [mset, if_neg hp, ih h]

theorem mem_mset_weak {α β : Type} [DecidableEq α] {l : List (α × β)} {k : α} {v : β}
    {p : α × β} (h : p ∈ mset l k v) : p ∈ l ∨ p = (k, v) := by
  induction l with
  | nil =>
    rw [mset] at h
    right
    simpa using h
  | cons q rest ih =>
    by_cases hq : q.1 = k
    · rw [mset, if_pos hq, List.mem_cons] at h
      rcases h with rfl | h
      · right; rfl
      · left; exact List.mem_cons_of_mem _ h
    · rw [mset, if_neg hq, List.mem_cons] at h
      rcases h with rfl | h
      · left; exact List.mem_cons_self _ _
      · rcases ih h with h' | h'
        · left; exact List.mem_cons_of_mem _ h'
        · right; exact h'

theorem mem_keys_mset {α β : Type} [DecidableEq α] {l : List (α × β)} {k : α} {v : β}
    {a : α} : a ∈ (mset l k v).map Prod.fst ↔ a ∈ l.map Prod.fst ∨ a = k := by
  induction l with
  | nil => simp [mset]
  | cons q rest ih =>
    by_cases hq : q.1 = k
    · rw [mset, if_pos hq, List.map_cons, List.map_cons, List.mem_cons, List.mem_cons, hq]
      tauto
    · rw [mset, if_neg hq, List.map_cons, List.map_cons, List.mem_cons, List.mem_cons, ih]
      tauto

theorem nodupk_mset {α β : Type} [DecidableEq α] {l : List (α × β)} {k : α} {v : β}
    (h : NodupK l) : NodupK (mset l k v) := by
  induction l with
  | nil => simp [mset, NodupK]
  | cons q rest ih =>
    rw [NodupK, List.map_cons, List.nodup_cons] at h
    by_cases hq : q.1 = k
    · rw [NodupK, mset, if_pos hq, List.map_cons, List.nodup_cons]
      exact ⟨hq ▸ h.1, h.2⟩
    · rw [NodupK, mset, if_neg hq, List.map_cons, List.nodup_cons]
      refine ⟨fun hc => ?_, ih h.2⟩
      rcases mem_keys_mset.1 hc with hc' | hc'
      · exact h.1 hc'
      · exact hq hc'

theorem nodupk_mdel {α β : Type} [DecidableEq α] {l : List (α × β)} {k : α}
    (h : NodupK l) : NodupK (mdel l k) := by
  induction l with
  | nil => simpa [mdel] using h
  | cons q rest ih =>
    rw [NodupK, List.map_cons, List.nodup_cons] at h
    by_cases hq : q.1 = k
    · rw [mdel, if_pos hq]
      exact ih h.2
    · rw [NodupK, mdel, if_neg hq, List.map_cons, List.nodup_cons]
      refine ⟨fun hc => ?_, ih h.2⟩
      rcases List.mem_map.1 hc with ⟨p, hp, hpe⟩
      exact h.1 (hpe ▸ List.mem_map_of_mem Prod.fst (mem_mdel.1 hp).1)

theorem mem_mset_nodup {α β : Type} [DecidableEq α] {l : List (α × β)} {k : α} {v : β}
    {p : α × β} (hnk : NodupK l) (h : p ∈ mset l k v) : (p ∈ l ∧ p.1 ≠ k) ∨ p = (k, v) := by
  induction l with
  | nil =>
    rw [mset] at h
    right
    simpa using h
  | cons q rest ih =>
    rw [NodupK, List.map_cons, List.nodup_cons] at hnk
    by_cases hq : q.1 = k
    · rw [mset, if_pos hq, List.mem_cons] at h
      rcases h with rfl | h
      · right; rfl
      · left
        refine ⟨List.mem_cons_of_mem _ h, fun he => ?_⟩
        exact hnk.1 (hq ▸ he ▸ List.mem_map_of_mem Prod.fst h)
    · rw [mset, if_neg hq, List.mem_cons] at h
      rcases h with rfl | h
      · left; exact ⟨List.mem_cons_self _ _, hq⟩
      · rcases ih hnk.2 h with ⟨h1, h2⟩ | h'
        · left; exact ⟨List.mem_cons_of_mem _ h1, h2⟩
        · right; exact h'

/-- JavaScript `Set.add` on a set of strings in insertion order:
no effect when present, append otherwise. -/
def setAdd (s : List String) (u : String) : List String :=
  if u ∈ s then s else s ++ [u]

theorem mem_setAdd {s : List String} {u v : String} :
    v ∈ setAdd s u ↔ v ∈ s ∨ v = u := by
  by_cases h : u ∈ s
  · rw [setAdd, if_pos h]
    constructor
    · exact Or.inl
    · rintro (hv | rfl)
      · exact hv
      · exact h
  · rw [setAdd, if_neg h]
    simp

theorem setAdd_ne_nil {s : List String} {u : String} : setAdd s u ≠ [] := by
  intro h
  have : u ∈ setAdd s u := mem_setAdd.2 (Or.inr rfl)
  rw [h] at this
  simp at this

theorem nodup_setAdd {s : List String} {u : String} (h : s.Nodup) :
    (setAdd s u).Nodup := by
  by_cases hu : u ∈ s
  · rw [setAdd, if_pos hu]
    exact h
  · rw [setAdd, if_neg hu]
    rw [List.nodup_append]
    refine ⟨h, List.nodup_singleton u, fun x hx hxu => ?_⟩
    rw [List.mem_singleton] at hxu
    exact hu (hxu ▸ hx)

theorem filter_ne_idem (l : List String) (u : String) :
    (l.filter (fun x => x ≠ u)).filter (fun x => x ≠ u) = l.filter (fun x => x ≠ u) := by
  induction l with
  | nil => rfl
  | cons x rest ih =>
    by_cases h : x = u
    · simp [List.filter_cons, h, ih]
    · simp [List.filter_cons, h, ih]

/-- A live socket.io socket as seen by the handlers: the `userId` property
stamped by the authentication middleware and the socket's current room set
(socket.rooms with the private id room filtered out, as the join handler does). -/
structure SocketSt where
  userId : String
  rooms : List String
  deriving DecidableEq, Repr

/-- The whole in-memory state of lib/websocket.js: the `userSockets` Map
(userId to socket, stored here by connection id), the `roomConnections` Map
(roomId to member-userId Set), and the set of live connected sockets. -/
structure ServerState where
  userSockets : List (String × Nat)
  roomConnections : List (String × List String)
  sockets : List (Nat × SocketSt)
  deriving DecidableEq, Repr

/-- The wire payloads the membership handlers emit (timestamps and fixed
message strings are not modelled). -/
inductive Payload where
  | playerConnected : String → Payload
  | playerDisconnected : String → Payload
  | roomJoined : String → List String → Payload
  deriving DecidableEq, Repr

/-- One emit performed by a handler: either `socket.to(room).emit(event, p)`
(delivered to every socket currently in `room` except the sender) or
`socket.emit(event, p)` (delivered to the socket itself). -/
inductive Emit where
  | toRoom : Nat → String → String → Payload → Emit
  | toSelf : Nat → String → Payload → Emit
  deriving DecidableEq, Repr

/-- Resolve one emit to its deliveries given the current live sockets. -/
def deliverEmit (socks : List (Nat × SocketSt)) : Emit → List (Nat × String × Payload)
  | Emit.toRoom sender room ev p =>
      (socks.filter (fun q => q.1 ≠ sender ∧ room ∈ q.2.rooms)).map
        (fun q => (q.1, ev, p))
  | Emit.toSelf t ev p => [(t, ev, p)]

/-- Model of addToRoomConnections (lib/websocket.js lines 130 to 136):
create the room's Set on first use, then add the user. -/
def addRC (rc : List (String × List String)) (u r : String) :
    List (String × List String) :=
  mset rc r (setAdd ((mget rc r).getD []) u)

/-- Model of removeFromRoomConnections (lib/websocket.js lines 138 to 149):
if the room exists, delete the user from its Set, and delete the room key
entirely when the Set has become empty. -/
def removeRC (rc : List (String × List String)) (u r : String) :
    List (String × List String) :=
  match mget rc r with
  | none => rc
  | some users =>
    let users' := users.filter (fun x => x ≠ u)
    if users' = [] then mdel rc r else mset rc r users'

/-- Model of getUserRooms (lib/websocket.js lines 151 to 159): every room
whose member Set contains the user, in Map iteration order. -/
def userRooms (rc : List (String × List String)) (u : String) : List String :=
  (rc.filter (fun p => u ∈ p.2)).map Prod.fst

/-- Model of getRoomUsers (lib/websocket.js lines 161 to 163). -/
def roomUsers (rc : List (String × List String)) (r : String) : List String :=
  (mget rc r).getD []

/-- Fold removeRC over a list of rooms, as the join-room and disconnect
handlers do with forEach. -/
def foldRemove (rc : List (String × List String)) (u : String) (rs : List String) :
    List (String × List String) :=
  rs.foldl (fun acc r => removeRC acc u r) rc

/-- Model of a successful authenticated connection (middleware lines 31 to 33
plus connection establishment): stamp userId on the socket, record it in
userSockets (last write wins), and the socket starts with no rooms. -/
def authConnect (st : ServerState) (u : String) (c : Nat) : ServerState :=
  { st with userSockets := mset st.userSockets u c,
            sockets := mset st.sockets c ⟨u, []⟩ }

/-- A bearer credential as the middleware sees it: whether jwt.verify accepts
it, and the userId claim it carries. -/
structure Token where
  valid : Bool
  userId : String
  deriving DecidableEq, Repr

/-- Outcome of the authentication middleware (lib/websocket.js lines 23 to 41). -/
inductive AuthResult where
  | ok : String → AuthResult
  | errRequired : AuthResult
  | errFailed : AuthResult
  deriving DecidableEq, Repr

def AuthResult.isOk : AuthResult → Bool
  | AuthResult.ok _ => true
  | _ => false

/-- Model of the authentication middleware: no token rejects with
"Authentication required"; jwt.verify throwing rejects with
"Authentication failed" before userSockets.set runs; otherwise the user is
registered and the connection established. -/
def authMiddleware (st : ServerState) (tok : Option Token) (c : Nat) :
    ServerState × AuthResult :=
  match tok with
  | none => (st, AuthResult.errRequired)
  | some t =>
    if t.valid then (authConnect st t.userId c, AuthResult.ok t.userId)
    else (st, AuthResult.errFailed)

/-- Model of the join-room handler (lib/websocket.js lines 47 to 77):
leave every previous room (socket.leave plus removeFromRoomConnections,
with no notice emitted), join the new room, add to roomConnections, notify
the room's other sockets with player-connected, and confirm to the joining
socket with room-joined carrying the member snapshot taken after the add. -/
def joinRoom (st : ServerState) (c : Nat) (roomId : String) :
    ServerState × List Emit :=
  match mget st.sockets c with
  | none => (st, [])
  | some sst =>
    let st1 : ServerState :=
      { st with roomConnections := foldRemove st.roomConnections sst.userId sst.rooms }
    let st2 : ServerState :=
      { st1 with sockets := mset st1.sockets c ⟨sst.userId, [roomId]⟩ }
    let st3 : ServerState :=
      { st2 with roomConnections := addRC st2.roomConnections sst.userId roomId }
    (st3,
      [Emit.toRoom c roomId "player-connected" (Payload.playerConnected sst.userId),
       Emit.toSelf c "room-joined"
         (Payload.roomJoined roomId (roomUsers st3.roomConnections roomId))])

/-- Model of the leave-room handler (lib/websocket.js lines 80 to 91):
socket.leave, removeFromRoomConnections, and an unconditional
player-disconnected notice to the room. -/
def leaveRoom (st : ServerState) (c : Nat) (roomId : String) :
    ServerState × List Emit :=
  match mget st.sockets c with
  | none => (st, [])
  | some sst =>
    let st1 : ServerState :=
      { st with sockets := mset st.sockets c ⟨sst.userId, sst.rooms.filter (fun x => x ≠ roomId)⟩ }
    let st2 : ServerState :=
      { st1 with roomConnections := removeRC st1.roomConnections sst.userId roomId }
    (st2, [Emit.toRoom c roomId "player-disconnected" (Payload.playerDisconnected sst.userId)])

/-- Model of the disconnect handler (lib/websocket.js lines 99 to 117) for a
socket whose userId property is `u`: the transport drops the socket, the
handler deletes userSockets[u] unconditionally, then removes `u` from every
room getUserRooms finds and notifies each such room. -/
def disconnectSocket (st : ServerState) (c : Nat) (u : String) :
    ServerState × List Emit :=
  let st1 : ServerState :=
    { st with sockets := mdel st.sockets c, userSockets := mdel st.userSockets u }
  let rs := userRooms st1.roomConnections u
  let st2 : ServerState :=
    { st1 with roomConnections := foldRemove st1.roomConnections u rs }
  (st2, rs.map (fun r => Emit.toRoom c r "player-disconnected" (Payload.playerDisconnected u)))

/-- A flat JSON-like value, enough to distinguish caller-supplied payload
fields from the server-generated envelope fields. -/
inductive JsonVal where
  | s : String → JsonVal
  | n : Int → JsonVal
  | b : Bool → JsonVal
  | nul : JsonVal
  deriving DecidableEq, Repr

/-- A JSON object as an ordered list of fields. -/
abbrev JObj := List (String × JsonVal)

/-- JavaScript object-literal assignment of one key after a spread: an
existing key keeps its position but takes the new value, a fresh key is
appended. -/
def setKey (o : JObj) (k : String) (v : JsonVal) : JObj :=
  if (mget o k).isSome then o.map (fun p => if p.1 = k then (k, v) else p)
  else o ++ [(k, v)]

/-- The envelope built by the broadcast code paths: the caller's data spread
first, then timestamp and roomId written on top. -/
def envelope (data : JObj) (ts roomId : String) : JObj :=
  setKey (setKey data "timestamp" (JsonVal.s ts)) "roomId" (JsonVal.s roomId)

/-- Model of broadcastToRoom (lib/websocket.js lines 166 to 185) with the
server initialized: io.to(roomId).emit(event, spread of data plus timestamp
and roomId) delivers to every socket currently in the transport room; the
registry is only read (getRoomUsers feeds a log line), never written. -/
def broadcastToRoom (st : ServerState) (roomId event : String) (data : JObj)
    (ts : String) : ServerState × List (Nat × String × JObj) :=
  (st,
    (st.sockets.filter (fun q => roomId ∈ q.2.rooms)).map
      (fun q => (q.1, event, envelope data ts roomId)))

/-- Model of POST /broadcast/player-joined (server.js lines 59 to 73) with io
initialized: io.to(roomId).emit of the spread joinData plus timestamp and
roomId. -/
def playerJoinedEndpoint (st : ServerState) (roomId : String) (joinData : JObj)
    (ts : String) : List (Nat × String × JObj) :=
  (st.sockets.filter (fun q => roomId ∈ q.2.rooms)).map
    (fun q => (q.1, "player-joined", envelope joinData ts roomId))

/-- One row of getWebSocketStats' roomDetails. -/
structure RoomDetail where
  roomId : String
  userCount : Nat
  users : List String
  deriving DecidableEq, Repr

/-- Model of getWebSocketStats (lib/websocket.js lines 228 to 239) with the
server initialized. -/
structure WSStats where
  isInit : Bool
  connectedUsers : Nat
  activeRooms : Nat
  roomDetails : List RoomDetail
  deriving DecidableEq, Repr

def getWebSocketStats (st : ServerState) : WSStats :=
  { isInit := true,
    connectedUsers := st.userSockets.length,
    activeRooms := st.roomConnections.length,
    roomDetails := st.roomConnections.map (fun p => ⟨p.1, p.2.length, p.2⟩) }

/-- The empty registry the module starts with. -/
def initState : ServerState := ⟨[], [], []⟩

/-- States reachable through the real event flow: successful authenticated
connections (any valid token, so a user may supersede their own earlier
connection), join-room, leave-room, and transport disconnect of a live
socket.  A fresh connection always gets an unused socket id. -/
inductive Reachable : ServerState → Prop where
  | init : Reachable initState
  | auth {st : ServerState} {u : String} {c : Nat} (h : Reachable st)
      (hc : mget st.sockets c = none) : Reachable (authConnect st u c)
  | join {st : ServerState} {c : Nat} {r : String} (h : Reachable st) :
      Reachable (joinRoom st c r).1
  | leave {st : ServerState} {c : Nat} {r : String} (h : Reachable st) :
      Reachable (leaveRoom st c r).1
  | disc {st : ServerState} {c : Nat} {sst : SocketSt} (h : Reachable st)
      (hs : mget st.sockets c = some sst) : Reachable (disconnectSocket st c sst.userId).1

/-- Reachability restricted to runs without user supersession: a user only
authenticates while they have no connection on file. -/
inductive ReachableNS : ServerState → Prop where
  | init : ReachableNS initState
  | auth {st : ServerState} {u : String} {c : Nat} (h : ReachableNS st)
      (hc : mget st.sockets c = none) (hu : mget st.userSockets u = none) :
      ReachableNS (authConnect st u c)
  | join {st : ServerState} {c : Nat} {r : String} (h : ReachableNS st) :
      ReachableNS (joinRoom st c r).1
  | leave {st : ServerState} {c : Nat} {r : String} (h : ReachableNS st) :
      ReachableNS (leaveRoom st c r).1
  | disc {st : ServerState} {c : Nat} {sst : SocketSt} (h : ReachableNS st)
      (hs : mget st.sockets c = some sst) : ReachableNS (disconnectSocket st c sst.userId).1

theorem roomUsers_iff {rc : List (String × List String)} {r v : String} :
    v ∈ roomUsers rc r ↔ ∃ users, mget rc r = some users ∧ v ∈ users := by
  rw [roomUsers]
  cases h : mget rc r with
  | none => simp
  | some users => simp [h]

theorem mget_addRC_self (rc : List (String × List String)) (u r : String) :
    mget (addRC rc u r) r = some (setAdd (roomUsers rc r) u) :=
  mget_mset_self rc r _

theorem mget_addRC_ne (rc : List (String × List String)) (u r : String)
    {r' : String} (h : r' ≠ r) : mget (addRC rc u r) r' = mget rc r' :=
  mget_mset_ne rc r _ h

theorem removeRC_of_none {rc : List (String × List String)} {u r : String}
    (h : mget rc r = none) : removeRC rc u r = rc := by
  rw [removeRC, h]

theorem mget_removeRC_ne {rc : List (String × List String)} {u r : String}
    {r' : String} (h : r' ≠ r) : mget (removeRC rc u r) r' = mget rc r' := by
  rw [removeRC]
  cases hg : mget rc r with
  | none => rfl
  | some users =>
    by_cases he : users.filter (fun x => x ≠ u) = []
    · simp only [he, if_pos]
      exact mget_mdel_ne rc r h
    · simp only [he, if_neg, ite_false]
      exact mget_mset_ne rc r _ h

theorem mget_removeRC_self {rc : List (String × List String)} {u r : String}
    {users : List String} (h : mget rc r = some users) :
    mget (removeRC rc u r) r =
      if users.filter (fun x => x ≠ u) = [] then none
      else some (users.filter (fun x => x ≠ u)) := by
  rw [removeRC, h]
  by_cases he : users.filter (fun x => x ≠ u) = []
  · simp only [he, if_pos]
    exact mget_mdel_self rc r
  · simp only [he, ite_false]
    exact mget_mset_self rc r _

theorem nodupk_addRC {rc : List (String × List String)} {u r : String}
    (h : NodupK rc) : NodupK (addRC rc u r) :=
  nodupk_mset h

theorem nodupk_removeRC {rc : List (String × List String)} {u r : String}
    (h : NodupK rc) : NodupK (removeRC rc u r) := by
  rw [removeRC]
  cases hg : mget rc r with
  | none => exact h
  | some users =>
    by_cases he : users.filter (fun x => x ≠ u) = []
    · simpa only [he, if_pos] using nodupk_mdel h
    · simpa only [he, ite_false] using nodupk_mset h


theorem removeRC_eq_some {rc : List (String × List String)} {u r : String}
    {users : List String} (hg : mget rc r = some users) :
    removeRC rc u r =
      if users.filter (fun x => x ≠ u) = [] then mdel rc r
      else mset rc r (users.filter (fun x => x ≠ u)) := by
  rw [removeRC, hg]

theorem removeRC_NE {rc : List (String × List String)} {u r : String}
    (h : ∀ p ∈ rc, p.2 ≠ []) : ∀ p ∈ removeRC rc u r, p.2 ≠ [] := by
  intro p hp
  cases hg : mget rc r with
  | none =>
    rw [removeRC_of_none hg] at hp
    exact h p hp
  | some users =>
    rw [removeRC_eq_some hg] at hp
    by_cases he : users.filter (fun x => x ≠ u) = []
    · rw [if_pos he] at hp
      exact h p (mem_mdel.1 hp).1
    · rw [if_neg he] at hp
      rcases mem_mset_weak hp with h' | h'
      · exact h p h'
      · rw [h']
        exact he

theorem addRC_NE {rc : List (String × List String)} {u r : String}
    (h : ∀ p ∈ rc, p.2 ≠ []) : ∀ p ∈ addRC rc u r, p.2 ≠ [] := by
  intro p hp
  rcases mem_mset_weak hp with h' | h'
  · exact h p h'
  · rw [h']
    exact setAdd_ne_nil

theorem mem_removeRC_cases {rc : List (String × List String)} {u r : String}
    {p : String × List String} (hnk : NodupK rc) (hp : p ∈ removeRC rc u r) :
    (p ∈ rc ∧ p.1 ≠ r) ∨
      ∃ users, mget rc r = some users ∧ p = (r, users.filter (fun x => x ≠ u)) ∧
        users.filter (fun x => x ≠ u) ≠ [] := by
  cases hg : mget rc r with
  | none =>
    rw [removeRC_of_none hg] at hp
    left
    refine ⟨hp, fun he => ?_⟩
    rcases mget_isSome_of_mem hp with ⟨v, hv⟩
    rw [he, hg] at hv
    exact Option.noConfusion hv
  | some users =>
    rw [removeRC_eq_some hg] at hp
    by_cases he : users.filter (fun x => x ≠ u) = []
    · rw [if_pos he] at hp
      left
      exact (mem_mdel.1 hp)
    · rw [if_neg he] at hp
      rcases mem_mset_nodup hnk hp with ⟨h1, h2⟩ | h'
      · left; exact ⟨h1, h2⟩
      · right; exact ⟨users, rfl, h', he⟩

theorem removeRC_not_mem {rc : List (String × List String)} {u r : String}
    (hu : u ∉ roomUsers rc r) (hne : mget rc r ≠ some []) : removeRC rc u r = rc := by
  cases hg : mget rc r with
  | none => exact removeRC_of_none hg
  | some users =>
    have husers : u ∉ users := by
      intro hc
      exact hu (roomUsers_iff.2 ⟨users, hg, hc⟩)
    have hfe : users.filter (fun x => x ≠ u) = users :=
      List.filter_eq_self.2 (fun a ha => by
        simp only [ne_eq, decide_not, Bool.not_eq_true', decide_eq_false_iff_not, not_not]
        intro he
        exact absurd (he ▸ ha) husers)
    have hune : users ≠ [] := fun he => hne (he ▸ hg)
    rw [removeRC_eq_some hg, hfe, if_neg hune]
    exact mset_same hg

theorem foldRemove_nil (rc : List (String × List String)) (u : String) :
    foldRemove rc u [] = rc := rfl

theorem foldRemove_cons (rc : List (String × List String)) (u r : String)
    (rs : List String) : foldRemove rc u (r :: rs) = foldRemove (removeRC rc u r) u rs := rfl

theorem nodupk_foldRemove {rc : List (String × List String)} {u : String}
    {rs : List String} (h : NodupK rc) : NodupK (foldRemove rc u rs) := by
  induction rs generalizing rc with
  | nil => exact h
  | cons r rs ih => exact ih (nodupk_removeRC h)

theorem foldRemove_NE {rc : List (String × List String)} {u : String}
    {rs : List String} (h : ∀ p ∈ rc, p.2 ≠ []) :
    ∀ p ∈ foldRemove rc u rs, p.2 ≠ [] := by
  induction rs generalizing rc with
  | nil => exact h
  | cons r rs ih => exact ih (removeRC_NE h)

theorem mem_foldRemove_cases {rc : List (String × List String)} {u : String}
    {rs : List String} {p : String × List String} (hnk : NodupK rc)
    (hp : p ∈ foldRemove rc u rs) :
    ∃ users, (p.1, users) ∈ rc ∧
      (p.2 = users ∨ p.2 = users.filter (fun x => x ≠ u)) := by
  induction rs generalizing rc with
  | nil => exact ⟨p.2, hp, Or.inl rfl⟩
  | cons r rs ih =>
    rw [foldRemove_cons] at hp
    rcases ih (nodupk_removeRC hnk) hp with ⟨users, hmem, hval⟩
    rcases mem_removeRC_cases hnk hmem with ⟨h1, _⟩ | ⟨users0, hg, hpe, _⟩
    · exact ⟨users, h1, hval⟩
    · have hfst : p.1 = r := congrArg Prod.fst hpe
      have hsnd : users = users0.filter (fun x => x ≠ u) := congrArg Prod.snd hpe
      refine ⟨users0, ?_, ?_⟩
      · rw [hfst]
        exact mem_of_mget hg
      · rcases hval with hval | hval
        · right; rw [hval, hsnd]
        · right; rw [hval, hsnd, filter_ne_idem]

theorem fold_removes_all {rc : List (String × List String)} {u : String}
    {rs : List String} (hnk : NodupK rc)
    (hcov : ∀ p ∈ rc, u ∈ p.2 → p.1 ∈ rs) :
    ∀ p ∈ foldRemove rc u rs, u ∉ p.2 := by
  induction rs generalizing rc with
  | nil =>
    intro p hp hu
    simpa using hcov p hp hu
  | cons r rs ih =>
    rw [foldRemove_cons]
    refine ih (nodupk_removeRC hnk) ?_
    intro p hp hu
    rcases mem_removeRC_cases hnk hp with ⟨h1, h2⟩ | ⟨users, _, hpe, _⟩
    · rcases List.mem_cons.1 (hcov p h1 hu) with h3 | h3
      · exact absurd h3 h2
      · exact h3
    · have hsnd : p.2 = users.filter (fun x => x ≠ u) := congrArg Prod.snd hpe
      have : u ∈ users.filter (fun x => x ≠ u) := hsnd ▸ hu
      rw [List.mem_filter] at this
      simp at this

theorem mem_roomUsers_removeRC {rc : List (String × List String)} {u r r' v : String}
    (hv : v ∈ roomUsers rc r') (hvu : v ≠ u) : v ∈ roomUsers (removeRC rc u r) r' := by
  rcases roomUsers_iff.1 hv with ⟨users, hg, hmem⟩
  by_cases hr : r' = r
  · subst hr
    have hmf : v ∈ users.filter (fun x => x ≠ u) :=
      List.mem_filter.2 ⟨hmem, by simpa using hvu⟩
    have hne : users.filter (fun x => x ≠ u) ≠ [] := fun he => by
      rw [he] at hmf
      simp at hmf
    refine roomUsers_iff.2 ⟨users.filter (fun x => x ≠ u), ?_, hmf⟩
    rw [mget_removeRC_self hg, if_neg hne]
  · refine roomUsers_iff.2 ⟨users, ?_, hmem⟩
    rw [mget_removeRC_ne hr, hg]

theorem mem_roomUsers_foldRemove {rc : List (String × List String)} {u r' v : String}
    {rs : List String} (hv : v ∈ roomUsers rc r') (hvu : v ≠ u) :
    v ∈ roomUsers (foldRemove rc u rs) r' := by
  induction rs generalizing rc with
  | nil => exact hv
  | cons r rs ih => exact ih (mem_roomUsers_removeRC hv hvu)

theorem mem_userRooms {rc : List (String × List String)} {u : String}
    {p : String × List String} (hp : p ∈ rc) (hu : u ∈ p.2) : p.1 ∈ userRooms rc u := by
  rw [userRooms]
  exact List.mem_map_of_mem Prod.fst (List.mem_filter.2 ⟨hp, by simpa using hu⟩)

theorem userRooms_eq_nil {rc : List (String × List String)} {u : String}
    (h : ∀ p ∈ rc, u ∉ p.2) : userRooms rc u = [] := by
  rw [userRooms, List.map_eq_nil_iff, List.filter_eq_nil_iff]
  intro p hp
  simpa using h p hp

/-- The inductive consistency invariant of the registry: well-formed maps,
no empty or duplicated room member sets, userSockets and live sockets
pointing at each other, and room membership agreeing with each socket's
current rooms in both directions. -/
structure RegInv (st : ServerState) : Prop where
  nkU : NodupK st.userSockets
  nkR : NodupK st.roomConnections
  nkS : NodupK st.sockets
  roomsNE : ∀ p ∈ st.roomConnections, p.2 ≠ []
  roomsND : ∀ p ∈ st.roomConnections, p.2.Nodup
  usLive : ∀ p ∈ st.userSockets, ∃ sst, mget st.sockets p.2 = some sst ∧ sst.userId = p.1
  sLive : ∀ q ∈ st.sockets, mget st.userSockets q.2.userId = some q.1
  memConn : ∀ p ∈ st.roomConnections, ∀ u ∈ p.2, ∃ c sst,
    mget st.userSockets u = some c ∧ mget st.sockets c = some sst ∧ p.1 ∈ sst.rooms
  connMem : ∀ q ∈ st.sockets, ∀ r ∈ q.2.rooms, q.2.userId ∈ roomUsers st.roomConnections r

theorem RegInv.userOf {st : ServerState} (h : RegInv st) {c : Nat} {sst : SocketSt}
    (hs : mget st.sockets c = some sst) : mget st.userSockets sst.userId = some c :=
  h.sLive (c, sst) (mem_of_mget hs)

theorem RegInv.sockOf {st : ServerState} (h : RegInv st) {u : String} {c : Nat}
    (hu : mget st.userSockets u = some c) :
    ∃ sst, mget st.sockets c = some sst ∧ sst.userId = u :=
  h.usLive (u, c) (mem_of_mget hu)

theorem RegInv.userUnique {st : ServerState} (h : RegInv st) {c : Nat} {sst : SocketSt}
    {u : String} (hs : mget st.sockets c = some sst)
    (hu : mget st.userSockets u = some c) : sst.userId = u := by
  rcases h.sockOf hu with ⟨sst', hs', he⟩
  rw [hs] at hs'
  cases hs'
  exact he

theorem RegInv.rcNotEmpty {st : ServerState} (h : RegInv st) (r : String) :
    mget st.roomConnections r ≠ some [] := fun he =>
  h.roomsNE (r, []) (mem_of_mget he) rfl

theorem RegInv.notInRoom {st : ServerState} (h : RegInv st) {u : String} {c : Nat}
    {sst : SocketSt} {r : String} (hu : mget st.userSockets u = some c)
    (hs : mget st.sockets c = some sst) (hr : r ∉ sst.rooms) :
    u ∉ roomUsers st.roomConnections r := by
  intro hmem
  rcases roomUsers_iff.1 hmem with ⟨users, hg, hm⟩
  rcases h.memConn (r, users) (mem_of_mget hg) u hm with ⟨c', sst', hc', hs', hr'⟩
  rw [hu] at hc'
  cases hc'
  rw [hs] at hs'
  cases hs'
  exact hr hr'

/-- Both directions of invariant I1 as stated in the specification: a user
appears in a room's member set exactly when the connection on file for that
user in userSockets has that room among its current rooms. -/
def I1holds (st : ServerState) : Prop :=
  (∀ p ∈ st.roomConnections, ∀ u ∈ p.2, ∃ c sst,
      mget st.userSockets u = some c ∧ mget st.sockets c = some sst ∧ p.1 ∈ sst.rooms)
  ∧ (∀ p ∈ st.userSockets, ∀ sst, mget st.sockets p.2 = some sst →
      ∀ r ∈ sst.rooms, p.1 ∈ roomUsers st.roomConnections r)

theorem RegInv.i1 {st : ServerState} (h : RegInv st) : I1holds st := by
  refine ⟨h.memConn, ?_⟩
  intro p hp sst hsst r hr
  rcases h.usLive p hp with ⟨sst0, hs0, hid⟩
  rw [hsst] at hs0
  cases hs0
  have := h.connMem (p.2, sst) (mem_of_mget hsst) r hr
  rw [hid] at this
  exact this

theorem inv_init : RegInv initState := by
  refine ⟨?_, ?_, ?_, ?_, ?_, ?_, ?_, ?_, ?_⟩ <;> simp [initState, NodupK]

theorem inv_auth {st : ServerState} {u : String} {c : Nat} (h : RegInv st)
    (hc : mget st.sockets c = none) (hu : mget st.userSockets u = none) :
    RegInv (authConnect st u c) := by
  refine ⟨nodupk_mset h.nkU, h.nkR, nodupk_mset h.nkS, h.roomsNE, h.roomsND, ?_, ?_, ?_, ?_⟩
  · intro p hp
    rcases mem_mset_nodup h.nkU hp with ⟨hpold, hpne⟩ | rfl
    · rcases h.usLive p hpold with ⟨sst, hsp, hid⟩
      have hpc : p.2 ≠ c := by
        intro he
        rw [he, hc] at hsp
        exact Option.noConfusion hsp
      exact ⟨sst, by rw [authConnect]; simpa [mget_mset_ne _ _ _ hpc] using hsp, hid⟩
    · exact ⟨⟨u, []⟩, by simp [authConnect, mget_mset_self], rfl⟩
  · intro q hq
    rcases mem_mset_nodup h.nkS hq with ⟨hqold, hqne⟩ | rfl
    · have hold := h.sLive q hqold
      have hqu : q.2.userId ≠ u := by
        intro he
        rw [he, hu] at hold
        exact Option.noConfusion hold
      rw [authConnect]
      simpa [mget_mset_ne _ _ _ hqu] using hold
    · simp [authConnect, mget_mset_self]
  · intro p hp u' hu'
    rcases h.memConn p hp u' hu' with ⟨c', sst', hc', hs', hr'⟩
    have hu'u : u' ≠ u := by
      intro he
      rw [he, hu] at hc'
      exact Option.noConfusion hc'
    have hc'c : c' ≠ c := by
      intro he
      rw [he, hc] at hs'
      exact Option.noConfusion hs'
    refine ⟨c', sst', ?_, ?_, hr'⟩
    · rw [authConnect]
      simpa [mget_mset_ne _ _ _ hu'u] using hc'
    · rw [authConnect]
      simpa [mget_mset_ne _ _ _ hc'c] using hs'
  · intro q hq r hr
    rcases mem_mset_nodup h.nkS hq with ⟨hqold, _⟩ | rfl
    · exact h.connMem q hqold r hr
    · simp at hr

theorem joinRoom_none {st : ServerState} {c : Nat} {r : String}
    (hs : mget st.sockets c = none) : joinRoom st c r = (st, []) := by
  rw [joinRoom, hs]

theorem leaveRoom_none {st : ServerState} {c : Nat} {r : String}
    (hs : mget st.sockets c = none) : leaveRoom st c r = (st, []) := by
  rw [leaveRoom, hs]

theorem joinRoom_eq {st : ServerState} {c : Nat} {r : String} {sst : SocketSt}
    (hs : mget st.sockets c = some sst) :
    joinRoom st c r =
      ({ st with
          sockets := mset st.sockets c ⟨sst.userId, [r]⟩,
          roomConnections :=
            addRC (foldRemove st.roomConnections sst.userId sst.rooms) sst.userId r },
       [Emit.toRoom c r "player-connected" (Payload.playerConnected sst.userId),
        Emit.toSelf c "room-joined" (Payload.roomJoined r
          (roomUsers
            (addRC (foldRemove st.roomConnections sst.userId sst.rooms) sst.userId r) r))]) := by
  rw [joinRoom, hs]

theorem leaveRoom_eq {st : ServerState} {c : Nat} {r : String} {sst : SocketSt}
    (hs : mget st.sockets c = some sst) :
    leaveRoom st c r =
      ({ st with
          sockets := mset st.sockets c ⟨sst.userId, sst.rooms.filter (fun x => x ≠ r)⟩,
          roomConnections := removeRC st.roomConnections sst.userId r },
       [Emit.toRoom c r "player-disconnected" (Payload.playerDisconnected sst.userId)]) := by
  rw [leaveRoom, hs]

theorem disconnectSocket_eq (st : ServerState) (c : Nat) (u : String) :
    disconnectSocket st c u =
      ({ st with
          userSockets := mdel st.userSockets u,
          sockets := mdel st.sockets c,
          roomConnections :=
            foldRemove st.roomConnections u (userRooms st.roomConnections u) },
       (userRooms st.roomConnections u).map
         (fun r => Emit.toRoom c r "player-disconnected" (Payload.playerDisconnected u))) := rfl

theorem RegInv.otherSocketUser {st : ServerState} (h : RegInv st) {c : Nat}
    {sst : SocketSt} (hs : mget st.sockets c = some sst) {q : Nat × SocketSt}
    (hq : q ∈ st.sockets) (hqc : q.1 ≠ c) : q.2.userId ≠ sst.userId := by
  intro he
  have h1 := h.sLive q hq
  rw [he, h.userOf hs] at h1
  exact hqc (Option.some.inj h1).symm

/-- Calling leave-room for a room the socket is not in, while the user is not
in that room's member set and the room's set is not empty, leaves the whole
registry state unchanged. -/
theorem leaveRoom_stale {st : ServerState} {c : Nat} {r : String} {sst : SocketSt}
    (hs : mget st.sockets c = some sst) (hnr : r ∉ sst.rooms)
    (hnm : sst.userId ∉ roomUsers st.roomConnections r)
    (hne : mget st.roomConnections r ≠ some []) : (leaveRoom st c r).1 = st := by
  rw [leaveRoom_eq hs]
  have hfe : sst.rooms.filter (fun x => x ≠ r) = sst.rooms :=
    List.filter_eq_self.2 (fun a ha => by
      simp only [ne_eq, decide_not, Bool.not_eq_true', decide_eq_false_iff_not, not_not]
      intro he
      exact absurd (he ▸ ha) hnr)
  have heta : (⟨sst.userId, sst.rooms⟩ : SocketSt) = sst := rfl
  show ({ st with
      sockets := mset st.sockets c ⟨sst.userId, sst.rooms.filter (fun x => x ≠ r)⟩,
      roomConnections := removeRC st.roomConnections sst.userId r } : ServerState) = st
  rw [hfe, heta, mset_same hs, removeRC_not_mem hnm hne]

theorem inv_leave {st : ServerState} {c : Nat} {r : String} (h : RegInv st) :
    RegInv (leaveRoom st c r).1 := by
  cases hs : mget st.sockets c with
  | none =>
    rw [leaveRoom_none hs]
    exact h
  | some sst =>
    rw [leaveRoom_eq hs]
    refine ⟨h.nkU, nodupk_removeRC h.nkR, nodupk_mset h.nkS, removeRC_NE h.roomsNE,
      ?_, ?_, ?_, ?_, ?_⟩
    · intro p hp
      rcases mem_removeRC_cases h.nkR hp with ⟨hold, _⟩ | ⟨users, hg, hpe, _⟩
      · exact h.roomsND p hold
      · rw [congrArg Prod.snd hpe]
        exact (h.roomsND (r, users) (mem_of_mget hg)).filter _
    · intro p hp
      rcases h.usLive p hp with ⟨sstp, hsp, hid⟩
      by_cases hpc : p.2 = c
      · rw [hpc, hs] at hsp
        cases hsp
        exact ⟨⟨sst.userId, sst.rooms.filter (fun x => x ≠ r)⟩,
          by rw [hpc]; exact mget_mset_self _ _ _, hid⟩
      · exact ⟨sstp, by rw [mget_mset_ne _ _ _ hpc]; exact hsp, hid⟩
    · intro q hq
      rcases mem_mset_nodup h.nkS hq with ⟨hold, _⟩ | rfl
      · exact h.sLive q hold
      · show mget st.userSockets sst.userId = some c
        exact h.userOf hs
    · intro p hp u' hu'
      rcases mem_removeRC_cases h.nkR hp with ⟨hold, hpr⟩ | ⟨users, hg, hpe, _⟩
      · rcases h.memConn p hold u' hu' with ⟨c', sst', hc', hs', hr'⟩
        by_cases hcc : c' = c
        · have hss : sst' = sst := by
            rw [hcc, hs] at hs'
            exact (Option.some.inj hs').symm
          refine ⟨c, ⟨sst.userId, sst.rooms.filter (fun x => x ≠ r)⟩, hcc ▸ hc',
            mget_mset_self _ _ _, ?_⟩
          have hrr : p.1 ∈ sst.rooms := hss ▸ hr'
          have hmem : p.1 ∈ sst.rooms.filter (fun x => x ≠ r) :=
            List.mem_filter.2 ⟨hrr, by simpa using hpr⟩
          exact hmem
        · exact ⟨c', sst', hc', by rw [mget_mset_ne _ _ _ hcc]; exact hs', hr'⟩
      · have hp1 : p.1 = r := congrArg Prod.fst hpe
        have hp2 : p.2 = users.filter (fun x => x ≠ sst.userId) := congrArg Prod.snd hpe
        rw [hp2] at hu'
        have hu'users : u' ∈ users := List.mem_of_mem_filter hu'
        have hu'ne : u' ≠ sst.userId := by
          have := (List.mem_filter.1 hu').2
          simpa using this
        rcases h.memConn (r, users) (mem_of_mget hg) u' hu'users with ⟨c', sst', hc', hs', hr'⟩
        have hcc : c' ≠ c := by
          intro he
          rw [he] at hc'
          exact hu'ne (h.userUnique hs hc').symm
        refine ⟨c', sst', hc', by rw [mget_mset_ne _ _ _ hcc]; exact hs', ?_⟩
        rw [hp1]
        exact hr'
    · intro q hq r' hr'
      rcases mem_mset_nodup h.nkS hq with ⟨hold, hqc⟩ | rfl
      · have hne : q.2.userId ≠ sst.userId := h.otherSocketUser hs hold hqc
        exact mem_roomUsers_removeRC (h.connMem q hold r' hr') hne
      · have hr'mem : r' ∈ sst.rooms := List.mem_of_mem_filter hr'
        have hr'ne : r' ≠ r := by
          have := (List.mem_filter.1 hr').2
          simpa using this
        have hold := h.connMem (c, sst) (mem_of_mget hs) r' hr'mem
        rw [roomUsers, mget_removeRC_ne hr'ne]
        exact hold

theorem mem_roomUsers_addRC {rc : List (String × List String)} {u r r' v : String}
    (hv : v ∈ roomUsers rc r') : v ∈ roomUsers (addRC rc u r) r' := by
  by_cases hr : r' = r
  · subst hr
    rw [roomUsers, mget_addRC_self, Option.getD_some]
    exact mem_setAdd.2 (Or.inl hv)
  · rw [roomUsers, mget_addRC_ne _ _ _ hr]
    exact hv

theorem inv_disc {st : ServerState} {c : Nat} {sst : SocketSt} (h : RegInv st)
    (hs : mget st.sockets c = some sst) : RegInv (disconnectSocket st c sst.userId).1 := by
  rw [disconnectSocket_eq]
  have hcov : ∀ p ∈ st.roomConnections, sst.userId ∈ p.2 →
      p.1 ∈ userRooms st.roomConnections sst.userId :=
    fun p hp hu' => mem_userRooms hp hu'
  have hall : ∀ p ∈ foldRemove st.roomConnections sst.userId
      (userRooms st.roomConnections sst.userId), sst.userId ∉ p.2 :=
    fold_removes_all h.nkR hcov
  refine ⟨nodupk_mdel h.nkU, nodupk_foldRemove h.nkR, nodupk_mdel h.nkS,
    foldRemove_NE h.roomsNE, ?_, ?_, ?_, ?_, ?_⟩
  · intro p hp
    rcases mem_foldRemove_cases h.nkR hp with ⟨users, hmem, hval⟩
    rcases hval with hval | hval
    · rw [hval]
      exact h.roomsND (p.1, users) hmem
    · rw [hval]
      exact (h.roomsND (p.1, users) hmem).filter _
  · intro p hp
    rcases mem_mdel.1 hp with ⟨hold, hpu⟩
    rcases h.usLive p hold with ⟨sstp, hsp, hid⟩
    have hpc : p.2 ≠ c := by
      intro he
      rw [he, hs] at hsp
      cases hsp
      exact hpu hid.symm
    exact ⟨sstp, by rw [mget_mdel_ne _ _ hpc]; exact hsp, hid⟩
  · intro q hq
    rcases mem_mdel.1 hq with ⟨hold, hqc⟩
    have hne : q.2.userId ≠ sst.userId := h.otherSocketUser hs hold hqc
    rw [mget_mdel_ne _ _ hne]
    exact h.sLive q hold
  · intro p hp u' hu'
    have hu'ne : u' ≠ sst.userId := by
      intro he
      exact hall p hp (he ▸ hu')
    rcases mem_foldRemove_cases h.nkR hp with ⟨users, hmem, hval⟩
    have hu'users : u' ∈ users := by
      rcases hval with hval | hval
      · exact hval ▸ hu'
      · exact List.mem_of_mem_filter (hval ▸ hu')
    rcases h.memConn (p.1, users) hmem u' hu'users with ⟨c', sst', hc', hs', hr'⟩
    have hcc : c' ≠ c := by
      intro he
      rw [he] at hc'
      exact hu'ne (h.userUnique hs hc').symm
    exact ⟨c', sst', by rw [mget_mdel_ne _ _ hu'ne]; exact hc',
      by rw [mget_mdel_ne _ _ hcc]; exact hs', hr'⟩
  · intro q hq r' hr'
    rcases mem_mdel.1 hq with ⟨hold, hqc⟩
    have hne : q.2.userId ≠ sst.userId := h.otherSocketUser hs hold hqc
    exact mem_roomUsers_foldRemove (h.connMem q hold r' hr') hne

theorem inv_join {st : ServerState} {c : Nat} {r : String} (h : RegInv st) :
    RegInv (joinRoom st c r).1 := by
  cases hs : mget st.sockets c with
  | none =>
    rw [joinRoom_none hs]
    exact h
  | some sst =>
    rw [joinRoom_eq hs]
    have hcov : ∀ p ∈ st.roomConnections, sst.userId ∈ p.2 → p.1 ∈ sst.rooms := by
      intro p hp hu'
      rcases h.memConn p hp sst.userId hu' with ⟨c', sst', hc', hs', hr'⟩
      have hcc : c' = c := by
        rw [h.userOf hs] at hc'
        exact (Option.some.inj hc').symm
      rw [hcc, hs] at hs'
      cases hs'
      exact hr'
    have hnk1 : NodupK (foldRemove st.roomConnections sst.userId sst.rooms) :=
      nodupk_foldRemove h.nkR
    have hall : ∀ p ∈ foldRemove st.roomConnections sst.userId sst.rooms,
        sst.userId ∉ p.2 := fold_removes_all h.nkR hcov
    refine ⟨h.nkU, nodupk_mset hnk1, nodupk_mset h.nkS,
      addRC_NE (foldRemove_NE h.roomsNE), ?_, ?_, ?_, ?_, ?_⟩
    · intro p hp
      rcases mem_mset_nodup hnk1 hp with ⟨hold, _⟩ | rfl
      · rcases mem_foldRemove_cases h.nkR hold with ⟨users, hmem, hval⟩
        rcases hval with hval | hval
        · rw [hval]
          exact h.roomsND (p.1, users) hmem
        · rw [hval]
          exact (h.roomsND (p.1, users) hmem).filter _
      · show (setAdd (roomUsers (foldRemove st.roomConnections sst.userId sst.rooms) r)
          sst.userId).Nodup
        refine nodup_setAdd ?_
        rw [roomUsers]
        cases hg : mget (foldRemove st.roomConnections sst.userId sst.rooms) r with
        | none => simp
        | some users1 =>
          rw [Option.getD_some]
          rcases mem_foldRemove_cases h.nkR (mem_of_mget hg) with ⟨users, hmem, hval⟩
          have hmem' : (r, users) ∈ st.roomConnections := hmem
          rcases hval with hval | hval
          · have hval' : users1 = users := hval
            rw [hval']
            exact h.roomsND (r, users) hmem'
          · have hval' : users1 = users.filter (fun x => x ≠ sst.userId) := hval
            rw [hval']
            exact (h.roomsND (r, users) hmem').filter _
    · intro p hp
      rcases h.usLive p hp with ⟨sstp, hsp, hid⟩
      by_cases hpc : p.2 = c
      · rw [hpc, hs] at hsp
        cases hsp
        exact ⟨⟨sst.userId, [r]⟩, by rw [hpc]; exact mget_mset_self _ _ _, hid⟩
      · exact ⟨sstp, by rw [mget_mset_ne _ _ _ hpc]; exact hsp, hid⟩
    · intro q hq
      rcases mem_mset_nodup h.nkS hq with ⟨hold, _⟩ | rfl
      · exact h.sLive q hold
      · show mget st.userSockets sst.userId = some c
        exact h.userOf hs
    · intro p hp u' hu'
      rcases mem_mset_nodup hnk1 hp with ⟨hold, hpr⟩ | rfl
      · have hu'ne : u' ≠ sst.userId := by
          intro he
          exact hall p hold (he ▸ hu')
        rcases mem_foldRemove_cases h.nkR hold with ⟨users, hmem, hval⟩
        have hu'users : u' ∈ users := by
          rcases hval with hval | hval
          · exact hval ▸ hu'
          · exact List.mem_of_mem_filter (hval ▸ hu')
        rcases h.memConn (p.1, users) hmem u' hu'users with ⟨c', sst', hc', hs', hr'⟩
        have hcc : c' ≠ c := by
          intro he
          rw [he] at hc'
          exact hu'ne (h.userUnique hs hc').symm
        exact ⟨c', sst', hc', by rw [mget_mset_ne _ _ _ hcc]; exact hs', hr'⟩
      · have hu'mem : u' ∈ setAdd
            (roomUsers (foldRemove st.roomConnections sst.userId sst.rooms) r)
            sst.userId := hu'
        rcases mem_setAdd.1 hu'mem with hcur | rfl
        · rcases roomUsers_iff.1 hcur with ⟨users1, hg1, hu1⟩
          have hu'ne : u' ≠ sst.userId := by
            intro he
            exact hall (r, users1) (mem_of_mget hg1) (he ▸ hu1)
          rcases mem_foldRemove_cases h.nkR (mem_of_mget hg1) with ⟨users, hmem, hval⟩
          have hmem' : (r, users) ∈ st.roomConnections := hmem
          have hu'users : u' ∈ users := by
            rcases hval with hval | hval
            · have hval' : users1 = users := hval
              exact hval' ▸ hu1
            · have hval' : users1 = users.filter (fun x => x ≠ sst.userId) := hval
              exact List.mem_of_mem_filter (hval' ▸ hu1)
          rcases h.memConn (r, users) hmem' u' hu'users with ⟨c', sst', hc', hs', hr'⟩
          have hcc : c' ≠ c := by
            intro he
            rw [he] at hc'
            exact hu'ne (h.userUnique hs hc').symm
          exact ⟨c', sst', hc', by rw [mget_mset_ne _ _ _ hcc]; exact hs', hr'⟩
        · refine ⟨c, ⟨sst.userId, [r]⟩, h.userOf hs, mget_mset_self _ _ _, ?_⟩
          show r ∈ [r]
          simp
    · intro q hq r' hr'
      rcases mem_mset_nodup h.nkS hq with ⟨hold, hqc⟩ | rfl
      · have hne : q.2.userId ≠ sst.userId := h.otherSocketUser hs hold hqc
        exact mem_roomUsers_addRC
          (mem_roomUsers_foldRemove (h.connMem q hold r' hr') hne)
      · have hr'r : r' = r := by
          have : r' ∈ [r] := hr'
          simpa using this
        subst hr'r
        show sst.userId ∈ roomUsers
          (addRC (foldRemove st.roomConnections sst.userId sst.rooms) sst.userId r') r'
        rw [roomUsers, mget_addRC_self, Option.getD_some]
        exact mem_setAdd.2 (Or.inr rfl)

theorem reachableNS_inv {st : ServerState} (h : ReachableNS st) : RegInv st := by
  induction h with
  | init => exact inv_init
  | auth _ hc hu ih => exact inv_auth ih hc hu
  | join _ ih => exact inv_join ih
  | leave _ ih => exact inv_leave ih
  | disc _ hs ih => exact inv_disc ih hs

/-- Invariant I3: no room entry has an empty member set. -/
def NoEmptyRooms (st : ServerState) : Prop := ∀ p ∈ st.roomConnections, p.2 ≠ []

theorem noEmptyRooms_auth {st : ServerState} {u : String} {c : Nat}
    (h : NoEmptyRooms st) : NoEmptyRooms (authConnect st u c) := h

theorem noEmptyRooms_join {st : ServerState} {c : Nat} {r : String}
    (h : NoEmptyRooms st) : NoEmptyRooms (joinRoom st c r).1 := by
  cases hs : mget st.sockets c with
  | none =>
    rw [joinRoom_none hs]
    exact h
  | some sst =>
    rw [joinRoom_eq hs]
    exact addRC_NE (foldRemove_NE h)

theorem noEmptyRooms_leave {st : ServerState} {c : Nat} {r : String}
    (h : NoEmptyRooms st) : NoEmptyRooms (leaveRoom st c r).1 := by
  cases hs : mget st.sockets c with
  | none =>
    rw [leaveRoom_none hs]
    exact h
  | some sst =>
    rw [leaveRoom_eq hs]
    exact removeRC_NE h

theorem noEmptyRooms_disc {st : ServerState} {c : Nat} {u : String}
    (h : NoEmptyRooms st) : NoEmptyRooms (disconnectSocket st c u).1 := by
  rw [disconnectSocket_eq]
  exact foldRemove_NE h

theorem reachable_noEmptyRooms {st : ServerState} (h : Reachable st) : NoEmptyRooms st := by
  induction h with
  | init => intro p hp; simp [initState] at hp
  | auth _ _ ih => exact noEmptyRooms_auth ih
  | join _ ih => exact noEmptyRooms_join ih
  | leave _ ih => exact noEmptyRooms_leave ih
  | disc _ _ ih => exact noEmptyRooms_disc ih

theorem not_mem_roomUsers_removeRC_self (rc : List (String × List String))
    (u r : String) : u ∉ roomUsers (removeRC rc u r) r := by
  intro hc
  rcases roomUsers_iff.1 hc with ⟨users', hg, hm⟩
  cases hg0 : mget rc r with
  | none =>
    rw [removeRC_of_none hg0, hg0] at hg
    exact Option.noConfusion hg
  | some users =>
    rw [mget_removeRC_self hg0] at hg
    by_cases he : users.filter (fun x => x ≠ u) = []
    · rw [if_pos he] at hg
      exact Option.noConfusion hg
    · rw [if_neg he] at hg
      cases hg
      have := (List.mem_filter.1 hm).2
      simp at this

theorem deliverEmit_toRoom_not_sender {socks : List (Nat × SocketSt)} {sender : Nat}
    {room ev : String} {p : Payload} :
    ∀ d ∈ deliverEmit socks (Emit.toRoom sender room ev p), d.1 ≠ sender := by
  intro d hd
  rcases List.mem_map.1 hd with ⟨q, hq, rfl⟩
  have := (List.mem_filter.1 hq).2
  simp only [decide_eq_true_eq] at this
  exact this.1

theorem mget_mapReplace_self {o : JObj} {k : String} {v : JsonVal}
    (h : (mget o k).isSome = true) :
    mget (o.map (fun p => if p.1 = k then (k, v) else p)) k = some v := by
  induction o with
  | nil => simp [mget] at h
  | cons p rest ih =>
    by_cases hp : p.1 = k
    · simp [mget, hp]
    · rw [mget, if_neg hp] at h
      simpa [mget, hp] using ih h

theorem mget_mapReplace_ne {o : JObj} {k : String} {v : JsonVal} {k' : String}
    (h : k' ≠ k) :
    mget (o.map (fun p => if p.1 = k then (k, v) else p)) k' = mget o k' := by
  induction o with
  | nil => simp [mget]
  | cons p rest ih =>
    by_cases hp : p.1 = k
    · have : p.1 ≠ k' := by rw [hp]; exact Ne.symm h
      simp [mget, hp, Ne.symm h, this, ih]
    · by_cases hp' : p.1 = k'
      · simp [mget, hp, hp', h]
      · simp [mget, hp, hp', ih]

theorem mget_append_single_self {o : JObj} {k : String} {v : JsonVal}
    (h : mget o k = none) : mget (o ++ [(k, v)]) k = some v := by
  induction o with
  | nil => simp [mget]
  | cons p rest ih =>
    by_cases hp : p.1 = k
    · rw [mget, if_pos hp] at h
      exact Option.noConfusion h
    · rw [mget, if_neg hp] at h
      simpa [mget, hp] using ih h

theorem mget_append_single_ne {o : JObj} {k : String} {v : JsonVal} {k' : String}
    (h : k' ≠ k) : mget (o ++ [(k, v)]) k' = mget o k' := by
  induction o with
  | nil => simp [mget, Ne.symm h]
  | cons p rest ih =>
    by_cases hp' : p.1 = k'
    · simp [mget, hp']
    · simpa [mget, hp'] using ih

theorem mget_setKey_self (o : JObj) (k : String) (v : JsonVal) :
    mget (setKey o k v) k = some v := by
  rw [setKey]
  by_cases h : (mget o k).isSome
  · rw [if_pos h]
    exact mget_mapReplace_self h
  · rw [if_neg h]
    exact mget_append_single_self (Option.not_isSome_iff_eq_none.1 h)

theorem mget_setKey_ne (o : JObj) (k : String) (v : JsonVal) {k' : String}
    (h : k' ≠ k) : mget (setKey o k v) k' = mget o k' := by
  rw [setKey]
  by_cases hx : (mget o k).isSome
  · rw [if_pos hx]
    exact mget_mapReplace_ne h
  · rw [if_neg hx]
    exact mget_append_single_ne h

theorem mget_envelope_timestamp (data : JObj) (ts r : String) :
    mget (envelope data ts r) "timestamp" = some (JsonVal.s ts) := by
  rw [envelope, mget_setKey_ne _ _ _ (by decide : "timestamp" ≠ "roomId")]
  exact mget_setKey_self _ _ _

theorem mget_envelope_roomId (data : JObj) (ts r : String) :
    mget (envelope data ts r) "roomId" = some (JsonVal.s r) := by
  rw [envelope]
  exact mget_setKey_self _ _ _

theorem mget_envelope_other (data : JObj) (ts r : String) {k : String}
    (h1 : k ≠ "timestamp") (h2 : k ≠ "roomId") :
    mget (envelope data ts r) k = mget data k := by
  rw [envelope, mget_setKey_ne _ _ _ h2, mget_setKey_ne _ _ _ h1]

/-- A run with supersession: alice connects on socket 1, joins room "r",
then connects again on socket 2 without disconnecting socket 1. -/
def stDrift : ServerState :=
  authConnect (joinRoom (authConnect initState "alice" 1) 1 "r").1 "alice" 2

/-- alice (socket 1) and bob (socket 2) both joined to room "a". -/
def stAB : ServerState :=
  ⟨[("alice", 1), ("bob", 2)],
   [("a", ["alice", "bob"])],
   [(1, ⟨"alice", ["a"]⟩), (2, ⟨"bob", ["a"]⟩)]⟩

/-- alice (socket 1) joined to room "t"; bob (socket 2) connected, unjoined. -/
def stTable : ServerState :=
  ⟨[("alice", 1), ("bob", 2)],
   [("t", ["alice"])],
   [(1, ⟨"alice", ["t"]⟩), (2, ⟨"bob", []⟩)]⟩

/-- bob (socket 2) connected, no rooms exist yet. -/
def stEmptyJoin : ServerState :=
  ⟨[("bob", 2)], [], [(2, ⟨"bob", []⟩)]⟩

/-- alice superseded: old socket 1 still live but replaced in userSockets by
socket 2, which has joined room "r". -/
def stSup : ServerState :=
  ⟨[("alice", 2)], [("r", ["alice"])],
   [(1, ⟨"alice", []⟩), (2, ⟨"alice", ["r"]⟩)]⟩

/-- An emit is a player-disconnected departure notice directed at `room`. -/
def isDeparture (room : String) : Emit → Bool
  | Emit.toRoom _ rm ev _ => rm == room && ev == "player-disconnected"
  | _ => false

/-- C1 (amended): invariant I1 holds in every state reachable by
authenticate, join-room, leave-room and disconnect, provided no user
authenticates a second connection while a previous one is still on file
(no supersession). -/
theorem i1_no_supersession (st : ServerState) (h : ReachableNS st) : I1holds st :=
  (reachableNS_inv h).i1

/-- Witness for C1: the state where alice connected and joined room "r"
satisfies I1. -/
theorem i1_no_supersession_witness :
    I1holds (joinRoom (authConnect initState "alice" 1) 1 "r").1 :=
  i1_no_supersession _ (ReachableNS.join (ReachableNS.auth ReachableNS.init rfl rfl))

/-- C1 counterexample: after a superseding reconnect the reachable state
stDrift keeps alice in room "r" while her connection on file (socket 2) is
in no room, so I1 fails on a reachable state. -/
theorem i1_counterexample : Reachable stDrift ∧ ¬ I1holds stDrift := by
  constructor
  · exact Reachable.auth (Reachable.join (Reachable.auth Reachable.init (by decide)))
      (by decide)
  · intro hI
    have hm : ("r", ["alice"]) ∈ stDrift.roomConnections := by decide
    rcases hI.1 ("r", ["alice"]) hm "alice" (by decide) with ⟨c, sst, hc, hsst, hr⟩
    have hc2 : mget stDrift.userSockets "alice" = some 2 := by decide
    rw [hc2] at hc
    have hceq : c = 2 := (Option.some.inj hc).symm
    rw [hceq] at hsst
    have hs2 : mget stDrift.sockets 2 = some (⟨"alice", []⟩ : SocketSt) := by decide
    rw [hs2] at hsst
    cases hsst
    simp at hr

/-- C2 counterexample: bob, joined to room "a" alongside alice, performs
join-room "b"; the handler emits no player-disconnected departure notice
toward "a" at all (the claim requires exactly one). -/
theorem join_no_departure_counterexample :
    mget stAB.sockets 2 = some ⟨"bob", ["a"]⟩ ∧
    "alice" ∈ roomUsers stAB.roomConnections "a" ∧
    ("a" : String) ≠ "b" ∧
    ((joinRoom stAB 2 "b").2.filter (isDeparture "a")).length = 0 ∧
    ¬ ((joinRoom stAB 2 "b").2.filter (isDeparture "a")).length = 1 := by decide

/-- C2 (amended): joining room B while joined to room A ≠ B removes the
membership in A silently (no departure notice of any kind is emitted), then
adds membership in B, emitting exactly one player-connected arrival notice
to B (never delivered back to the joining connection) followed by exactly
one direct room-joined confirmation, in that order. -/
theorem join_switch_behavior (st : ServerState) (c : Nat) (sst : SocketSt)
    (a b : String) (hs : mget st.sockets c = some sst) (hr : sst.rooms = [a])
    (hab : a ≠ b) :
    (joinRoom st c b).2 =
      [Emit.toRoom c b "player-connected" (Payload.playerConnected sst.userId),
       Emit.toSelf c "room-joined"
         (Payload.roomJoined b (roomUsers (joinRoom st c b).1.roomConnections b))] ∧
    sst.userId ∉ roomUsers (joinRoom st c b).1.roomConnections a ∧
    sst.userId ∈ roomUsers (joinRoom st c b).1.roomConnections b ∧
    (∀ d ∈ deliverEmit (joinRoom st c b).1.sockets
        (Emit.toRoom c b "player-connected" (Payload.playerConnected sst.userId)),
      d.1 ≠ c) := by
  simp only [joinRoom_eq hs]
  refine ⟨trivial, ?_, ?_, fun d hd => deliverEmit_toRoom_not_sender d hd⟩
  · rw [hr, roomUsers, mget_addRC_ne _ _ _ hab]
    exact not_mem_roomUsers_removeRC_self st.roomConnections sst.userId a
  · rw [roomUsers, mget_addRC_self, Option.getD_some]
    exact mem_setAdd.2 (Or.inr rfl)

/-- Witness for C2 (amended): bob switches from room "a" to room "b". -/
theorem join_switch_behavior_witness :
    (joinRoom stAB 2 "b").2 =
      [Emit.toRoom 2 "b" "player-connected" (Payload.playerConnected "bob"),
       Emit.toSelf 2 "room-joined"
         (Payload.roomJoined "b" (roomUsers (joinRoom stAB 2 "b").1.roomConnections "b"))] ∧
    "bob" ∉ roomUsers (joinRoom stAB 2 "b").1.roomConnections "a" ∧
    "bob" ∈ roomUsers (joinRoom stAB 2 "b").1.roomConnections "b" ∧
    (∀ d ∈ deliverEmit (joinRoom stAB 2 "b").1.sockets
        (Emit.toRoom 2 "b" "player-connected" (Payload.playerConnected "bob")),
      d.1 ≠ 2) :=
  join_switch_behavior stAB 2 ⟨"bob", ["a"]⟩ "a" "b" (by decide) rfl (by decide)

/-- C3 counterexample: the room-joined confirmation snapshot is taken after
the joiner is added, so bob joining alice's room "t" receives
connectedUsers alice-and-bob (not just alice), and bob joining a fresh
room receives his own id (not the empty list). -/
theorem join_confirmation_counterexample :
    ((joinRoom stTable 2 "t").2 =
      [Emit.toRoom 2 "t" "player-connected" (Payload.playerConnected "bob"),
       Emit.toSelf 2 "room-joined" (Payload.roomJoined "t" ["alice", "bob"])] ∧
     (["alice", "bob"] : List String) ≠ ["alice"]) ∧
    ((joinRoom stEmptyJoin 2 "w").2 =
      [Emit.toRoom 2 "w" "player-connected" (Payload.playerConnected "bob"),
       Emit.toSelf 2 "room-joined" (Payload.roomJoined "w" ["bob"])] ∧
     (["bob"] : List String) ≠ ([] : List String)) := by decide

/-- C3 (amended): the room-joined confirmation carries the member snapshot
taken after the joining user was added, so it always includes the joining
user's own id. -/
theorem join_confirmation_snapshot (st : ServerState) (c : Nat) (sst : SocketSt)
    (r : String) (hs : mget st.sockets c = some sst) :
    ∃ users, (joinRoom st c r).2 =
        [Emit.toRoom c r "player-connected" (Payload.playerConnected sst.userId),
         Emit.toSelf c "room-joined" (Payload.roomJoined r users)] ∧
      users = roomUsers (joinRoom st c r).1.roomConnections r ∧
      sst.userId ∈ users := by
  simp only [joinRoom_eq hs]
  refine ⟨_, rfl, rfl, ?_⟩
  rw [roomUsers, mget_addRC_self, Option.getD_some]
  exact mem_setAdd.2 (Or.inr rfl)

/-- Witness for C3 (amended): bob joining the fresh room "w". -/
theorem join_confirmation_snapshot_witness :
    ∃ users, (joinRoom stEmptyJoin 2 "w").2 =
        [Emit.toRoom 2 "w" "player-connected" (Payload.playerConnected "bob"),
         Emit.toSelf 2 "room-joined" (Payload.roomJoined "w" users)] ∧
      users = roomUsers (joinRoom stEmptyJoin 2 "w").1.roomConnections "w" ∧
      "bob" ∈ users :=
  join_confirmation_snapshot stEmptyJoin 2 ⟨"bob", []⟩ "w" (by decide)

/-- C4 counterexample: with alice's mapping superseded by socket 2 (joined
to "r"), a disconnect of stale socket 1 deletes the newer mapping and
empties alice's room membership, instead of leaving them unchanged. -/
theorem unregister_counterexample :
    mget stSup.userSockets "alice" = some 2 ∧ (2 : Nat) ≠ 1 ∧
    mget (disconnectSocket stSup 1 "alice").1.userSockets "alice" = none ∧
    roomUsers (disconnectSocket stSup 1 "alice").1.roomConnections "r" = [] := by decide

/-- C4 (amended): the disconnect handler removes the user-to-connection
record unconditionally (userSockets.delete has no staleness guard) and then
strips the user from every room's member set, even when the disconnecting
socket had been superseded by a newer connection. -/
theorem disconnect_unconditional (st : ServerState) (c : Nat) (u : String)
    (hnk : NodupK st.roomConnections) :
    mget (disconnectSocket st c u).1.userSockets u = none ∧
    ∀ p ∈ (disconnectSocket st c u).1.roomConnections, u ∉ p.2 := by
  refine ⟨mget_mdel_self _ _, ?_⟩
  exact fold_removes_all hnk (fun p hp hu => mem_userRooms hp hu)

/-- Witness for C4 (amended): the superseded-alice state. -/
theorem disconnect_unconditional_witness :
    mget (disconnectSocket stSup 1 "alice").1.userSockets "alice" = none ∧
    ∀ p ∈ (disconnectSocket stSup 1 "alice").1.roomConnections, "alice" ∉ p.2 :=
  disconnect_unconditional stSup 1 "alice" (by decide)

/-- C5: disconnect is idempotent: a second run of the disconnect handler for
the same socket and userId leaves the registry exactly as the first run left
it and emits no departure notices at all. -/
theorem disconnect_idempotent (st : ServerState) (c : Nat) (u : String)
    (hnk : NodupK st.roomConnections) :
    (disconnectSocket (disconnectSocket st c u).1 c u).1 = (disconnectSocket st c u).1 ∧
    (disconnectSocket (disconnectSocket st c u).1 c u).2 = [] := by
  have hall : ∀ p ∈ (disconnectSocket st c u).1.roomConnections, u ∉ p.2 :=
    fold_removes_all hnk (fun p hp hu => mem_userRooms hp hu)
  have hrs : userRooms (disconnectSocket st c u).1.roomConnections u = [] :=
    userRooms_eq_nil hall
  have h1 : mdel (disconnectSocket st c u).1.userSockets u =
      (disconnectSocket st c u).1.userSockets := mdel_mdel st.userSockets u
  have h2 : mdel (disconnectSocket st c u).1.sockets c =
      (disconnectSocket st c u).1.sockets := mdel_mdel st.sockets c
  constructor
  · rw [disconnectSocket_eq (disconnectSocket st c u).1 c u, hrs, foldRemove_nil, h1, h2]
  · rw [disconnectSocket_eq (disconnectSocket st c u).1 c u, hrs]
    rfl

/-- Witness for C5: double disconnect of stale socket 1 in the
superseded-alice state. -/
theorem disconnect_idempotent_witness :
    (disconnectSocket (disconnectSocket stSup 1 "alice").1 1 "alice").1 =
      (disconnectSocket stSup 1 "alice").1 ∧
    (disconnectSocket (disconnectSocket stSup 1 "alice").1 1 "alice").2 = [] :=
  disconnect_idempotent stSup 1 "alice" (by decide)

/-- C6 counterexample: bob is not in room "t", yet his leave-room "t" emits a
player-disconnected notice that is delivered to alice, the room's member —
an observable effect toward the room's members (the registry itself is
unchanged). -/
theorem leave_notice_counterexample :
    mget stTable.sockets 2 = some ⟨"bob", []⟩ ∧
    "bob" ∉ roomUsers stTable.roomConnections "t" ∧
    (leaveRoom stTable 2 "t").1 = stTable ∧
    (leaveRoom stTable 2 "t").2 =
      [Emit.toRoom 2 "t" "player-disconnected" (Payload.playerDisconnected "bob")] ∧
    deliverEmit (leaveRoom stTable 2 "t").1.sockets
        (Emit.toRoom 2 "t" "player-disconnected" (Payload.playerDisconnected "bob")) =
      [(1, "player-disconnected", Payload.playerDisconnected "bob")] := by decide

/-- C6 (amended): leave-room for a room the connection is not in leaves the
registry (userSockets, roomConnections, sockets) unchanged and raises no
error, but it still emits one player-disconnected notice toward that room's
current members. -/
theorem leave_not_joined (st : ServerState) (c : Nat) (sst : SocketSt) (r : String)
    (hs : mget st.sockets c = some sst) (hnr : r ∉ sst.rooms)
    (hnm : sst.userId ∉ roomUsers st.roomConnections r)
    (hne : mget st.roomConnections r ≠ some []) :
    (leaveRoom st c r).1 = st ∧
    (leaveRoom st c r).2 =
      [Emit.toRoom c r "player-disconnected" (Payload.playerDisconnected sst.userId)] :=
  ⟨leaveRoom_stale hs hnr hnm hne, by rw [leaveRoom_eq hs]⟩

/-- Witness for C6 (amended): bob leaving room "t" he never joined. -/
theorem leave_not_joined_witness :
    (leaveRoom stTable 2 "t").1 = stTable ∧
    (leaveRoom stTable 2 "t").2 =
      [Emit.toRoom 2 "t" "player-disconnected" (Payload.playerDisconnected "bob")] :=
  leave_not_joined stTable 2 ⟨"bob", []⟩ "t" (by decide) (by decide) (by decide) (by decide)

/-- C7: in every reachable state no room entry has an empty member set,
every row of getWebSocketStats reports at least one member, and any further
removeMember call again leaves no empty room entry behind. -/
theorem stats_no_empty_rooms (st : ServerState) (h : Reachable st) :
    (∀ p ∈ st.roomConnections, p.2 ≠ []) ∧
    (∀ d ∈ (getWebSocketStats st).roomDetails, 1 ≤ d.userCount) ∧
    (∀ u r, ∀ p ∈ removeRC st.roomConnections u r, p.2 ≠ []) := by
  have hne := reachable_noEmptyRooms h
  refine ⟨hne, ?_, fun u r => removeRC_NE hne⟩
  intro d hd
  rcases List.mem_map.1 hd with ⟨p, hp, rfl⟩
  exact List.length_pos.2 (hne p hp)

/-- Witness for C7: the reachable state in which alice joined room "r" and
then left it, emptying and deleting the room. -/
theorem stats_no_empty_rooms_witness :
    (∀ p ∈ (leaveRoom (joinRoom (authConnect initState "alice" 1) 1 "r").1 1 "r").1.roomConnections,
      p.2 ≠ []) ∧
    (∀ d ∈ (getWebSocketStats
        (leaveRoom (joinRoom (authConnect initState "alice" 1) 1 "r").1 1 "r").1).roomDetails,
      1 ≤ d.userCount) ∧
    (∀ u r, ∀ p ∈ removeRC
        (leaveRoom (joinRoom (authConnect initState "alice" 1) 1 "r").1 1 "r").1.roomConnections u r,
      p.2 ≠ []) :=
  stats_no_empty_rooms _
    (Reachable.leave (Reachable.join (Reachable.auth Reachable.init rfl)))

/-- The membership of one room is in sync with the transport: every member's
connection on file is a live socket currently in that transport room. -/
def SyncAt (st : ServerState) (r : String) : Prop :=
  ∀ u ∈ roomUsers st.roomConnections r, ∃ c sst,
    mget st.userSockets u = some c ∧ mget st.sockets c = some sst ∧ r ∈ sst.rooms

/-- C8 counterexample: in the reachable superseded state stDrift, alice is a
member of room "r" and her resolved connection on file is socket 2, yet a
broadcast to "r" delivers to no socket numbered 2 (only to the stale socket
1 that is still in the transport room). -/
theorem broadcast_resolved_counterexample :
    Reachable stDrift ∧
    "alice" ∈ roomUsers stDrift.roomConnections "r" ∧
    mget stDrift.userSockets "alice" = some 2 ∧
    (∀ d ∈ (broadcastToRoom stDrift "r" "game-state-update" [] "T0").2, d.1 ≠ 2) := by
  refine ⟨Reachable.auth (Reachable.join (Reachable.auth Reachable.init (by decide)))
    (by decide), by decide, by decide, by decide⟩

/-- C8 (amended): broadcast leaves the registry unchanged, every delivered
message is exactly the caller payload with the roomId and timestamp envelope
written on top (all other keys passed through unvalidated), and when the
room is in sync with the transport (always true absent supersession) every
member's resolved connection receives exactly that enveloped payload. -/
theorem broadcast_behavior (st : ServerState) (r ev : String) (data : JObj) (ts : String)
    (hsync : SyncAt st r) :
    (broadcastToRoom st r ev data ts).1 = st ∧
    (∀ d ∈ (broadcastToRoom st r ev data ts).2, d.2.1 = ev ∧ d.2.2 = envelope data ts r) ∧
    (∀ u ∈ roomUsers st.roomConnections r, ∃ c,
      mget st.userSockets u = some c ∧
      (c, ev, envelope data ts r) ∈ (broadcastToRoom st r ev data ts).2) ∧
    (∀ k, k ≠ "timestamp" → k ≠ "roomId" → mget (envelope data ts r) k = mget data k) := by
  refine ⟨rfl, ?_, ?_, fun k h1 h2 => mget_envelope_other data ts r h1 h2⟩
  · intro d hd
    rcases List.mem_map.1 hd with ⟨q, _, rfl⟩
    exact ⟨rfl, rfl⟩
  · intro u hu
    rcases hsync u hu with ⟨c, sst, hc, hsc, hr⟩
    refine ⟨c, hc, ?_⟩
    have hmemf : (c, sst) ∈ st.sockets.filter (fun q => r ∈ q.2.rooms) := by
      refine List.mem_filter.2 ⟨mem_of_mget hsc, ?_⟩
      simpa using hr
    exact List.mem_map.2 ⟨(c, sst), hmemf, rfl⟩

/-- A broadcast payload whose keys clash with the envelope. -/
def dataClash : JObj :=
  [("timestamp", JsonVal.s "caller-ts"), ("roomId", JsonVal.s "spoof"),
   ("chips", JsonVal.n 100)]

/-- Witness for C8 (amended): broadcasting to the fully synced room "a" of
stAB. -/
theorem broadcast_behavior_witness :
    (broadcastToRoom stAB "a" "game-state-update" dataClash "T0").1 = stAB ∧
    (∀ d ∈ (broadcastToRoom stAB "a" "game-state-update" dataClash "T0").2,
      d.2.1 = "game-state-update" ∧ d.2.2 = envelope dataClash "T0" "a") ∧
    (∀ u ∈ roomUsers stAB.roomConnections "a", ∃ c,
      mget stAB.userSockets u = some c ∧
      (c, "game-state-update", envelope dataClash "T0" "a") ∈
        (broadcastToRoom stAB "a" "game-state-update" dataClash "T0").2) ∧
    (∀ k, k ≠ "timestamp" → k ≠ "roomId" →
      mget (envelope dataClash "T0" "a") k = mget dataClash k) := by
  refine broadcast_behavior stAB "a" "game-state-update" dataClash "T0" ?_
  intro u hu
  have hru : roomUsers stAB.roomConnections "a" = ["alice", "bob"] := rfl
  rw [hru] at hu
  rcases List.mem_cons.1 hu with rfl | hu2
  · exact ⟨1, ⟨"alice", ["a"]⟩, by decide, by decide, by decide⟩
  · rcases List.mem_cons.1 hu2 with rfl | hu3
    · exact ⟨2, ⟨"bob", ["a"]⟩, by decide, by decide, by decide⟩
    · simp at hu3

/-- C9: a missing or invalid bearer credential rejects the connection and
leaves the registry exactly as it was — no partial state. -/
theorem auth_failure_atomic (st : ServerState) (c : Nat) (tok : Option Token)
    (h : tok = none ∨ ∃ t, tok = some t ∧ t.valid = false) :
    (authMiddleware st tok c).1 = st ∧ (authMiddleware st tok c).2.isOk = false := by
  rcases h with rfl | ⟨t, rfl, hv⟩
  · exact ⟨rfl, rfl⟩
  · constructor <;> simp [authMiddleware, hv, AuthResult.isOk]

/-- Witness for C9: a missing token and an invalid token against a populated
registry. -/
theorem auth_failure_atomic_witness :
    ((authMiddleware stAB none 7).1 = stAB ∧
     (authMiddleware stAB none 7).2.isOk = false) ∧
    ((authMiddleware stAB (some ⟨false, "mallory"⟩) 7).1 = stAB ∧
     (authMiddleware stAB (some ⟨false, "mallory"⟩) 7).2.isOk = false) :=
  ⟨auth_failure_atomic stAB 7 none (Or.inl rfl),
   auth_failure_atomic stAB 7 (some ⟨false, "mallory"⟩)
     (Or.inr ⟨⟨false, "mallory"⟩, rfl, rfl⟩)⟩

/-- C10: the server-generated envelope wins: even when the caller payload
already has a timestamp or roomId key, every delivered object (from
broadcastToRoom and from the player-joined HTTP endpoint) carries the
server's values at those keys. -/
theorem envelope_overwrites (st : ServerState) (r ev : String) (data : JObj) (ts : String)
    (h : (mget data "timestamp").isSome = true ∨ (mget data "roomId").isSome = true) :
    mget (envelope data ts r) "timestamp" = some (JsonVal.s ts) ∧
    mget (envelope data ts r) "roomId" = some (JsonVal.s r) ∧
    (∀ d ∈ (broadcastToRoom st r ev data ts).2,
      mget d.2.2 "timestamp" = some (JsonVal.s ts) ∧
      mget d.2.2 "roomId" = some (JsonVal.s r)) ∧
    (∀ d ∈ playerJoinedEndpoint st r data ts,
      mget d.2.2 "timestamp" = some (JsonVal.s ts) ∧
      mget d.2.2 "roomId" = some (JsonVal.s r)) := by
  refine ⟨mget_envelope_timestamp data ts r, mget_envelope_roomId data ts r, ?_, ?_⟩
  · intro d hd
    rcases List.mem_map.1 hd with ⟨q, _, rfl⟩
    exact ⟨mget_envelope_timestamp data ts r, mget_envelope_roomId data ts r⟩
  · intro d hd
    rcases List.mem_map.1 hd with ⟨q, _, rfl⟩
    exact ⟨mget_envelope_timestamp data ts r, mget_envelope_roomId data ts r⟩

/-- Witness for C10: a payload carrying its own timestamp and roomId. -/
theorem envelope_overwrites_witness :
    mget (envelope dataClash "T1" "a") "timestamp" = some (JsonVal.s "T1") ∧
    mget (envelope dataClash "T1" "a") "roomId" = some (JsonVal.s "a") ∧
    (∀ d ∈ (broadcastToRoom stAB "a" "player-joined" dataClash "T1").2,
      mget d.2.2 "timestamp" = some (JsonVal.s "T1") ∧
      mget d.2.2 "roomId" = some (JsonVal.s "a")) ∧
    (∀ d ∈ playerJoinedEndpoint stAB "a" dataClash "T1",
      mget d.2.2 "timestamp" = some (JsonVal.s "T1") ∧
      mget d.2.2 "roomId" = some (JsonVal.s "a")) :=
  envelope_overwrites stAB "a" "player-joined" dataClash "T1" (Or.inl (by decide))
